import Mathlib

/-!
Verification of the QEMU fw_cfg guest driver (`qemu-fw-cfg-rs`).

The development shallowly embeds `src/lib.rs`: the hardware device is a
function from selector keys and byte offsets to bytes, the driver session
(`FwCfg`) is a record of the selector/cursor state plus the cached feature
bitmap, and every driver operation returns its result together with the
final state and the list of hardware accesses (the trace) it performed.
Machine integers are `Nat` with explicit byte decomposition; the
big-endian byte swaps performed by `to_be`/`from_be` on the little-endian
target are modelled by `bswap`.
-/

namespace QemuFwCfg

/-! ### Byte-level helpers

`toBytesLE w x` is the little-endian `w`-byte memory image of `x`
(the layout of a `uN` store on the x86 target); `fromBytesLE` decodes it.
Big-endian views are the reverses.  `bswap w` models `uN::to_be` /
`uN::from_be` on a little-endian machine (a byte swap). -/

def toBytesLE : Nat → Nat → List Nat
  | 0, _ => []
  | w + 1, x => x % 256 :: toBytesLE w (x / 256)

def fromBytesLE : List Nat → Nat
  | [] => 0
  | b :: t => b + 256 * fromBytesLE t

def toBytesBE (w x : Nat) : List Nat := (toBytesLE w x).reverse

def fromBytesBE (l : List Nat) : Nat := fromBytesLE l.reverse

def bswap (w x : Nat) : Nat := fromBytesLE (toBytesBE w x)

theorem toBytesLE_length (w x : Nat) : (toBytesLE w x).length = w := by
  induction w generalizing x with
  | zero => rfl
  | succ w ih => simp [toBytesLE, ih]

theorem toBytesLE_mem_lt (w x b : Nat) (hb : b ∈ toBytesLE w x) : b < 256 := by
  induction w generalizing x with
  | zero => simp [toBytesLE] at hb
  | succ w ih =>
    simp only [toBytesLE, List.mem_cons] at hb
    rcases hb with h | h
    · omega
    · exact ih _ h

theorem fromBytesLE_toBytesLE (w x : Nat) (hx : x < 256 ^ w) :
    fromBytesLE (toBytesLE w x) = x := by
  induction w generalizing x with
  | zero => simp [toBytesLE, fromBytesLE]; omega
  | succ w ih =>
    simp only [toBytesLE, fromBytesLE]
    rw [ih (x / 256) (by
      have : 256 ^ (w + 1) = 256 ^ w * 256 := by ring
      omega)]
    omega

theorem toBytesLE_fromBytesLE (l : List Nat) (hl : ∀ b ∈ l, b < 256) :
    toBytesLE l.length (fromBytesLE l) = l := by
  induction l with
  | nil => rfl
  | cons b t ih =>
    have hb : b < 256 := hl b (by simp)
    simp only [List.length_cons, toBytesLE, fromBytesLE, List.cons.injEq]
    constructor
    · omega
    · have : (b + 256 * fromBytesLE t) / 256 = fromBytesLE t := by omega
      rw [this, ih (fun x hx => hl x (by simp [hx]))]

theorem toBytesLE_bswap (w x : Nat) : toBytesLE w (bswap w x) = toBytesBE w x := by
  unfold bswap toBytesBE
  have hlen : (toBytesLE w x).reverse.length = w := by
    simp [toBytesLE_length]
  have := toBytesLE_fromBytesLE (toBytesLE w x).reverse
    (fun b hb => toBytesLE_mem_lt w x b (List.mem_reverse.mp hb))
  rw [hlen] at this
  exact this

theorem bswap_fromBytesLE (l : List Nat) (hl : ∀ b ∈ l, b < 256) :
    bswap l.length (fromBytesLE l) = fromBytesBE l := by
  unfold bswap toBytesBE fromBytesBE
  rw [toBytesLE_fromBytesLE l hl]

theorem fromBytesLE_lt (l : List Nat) (hl : ∀ b ∈ l, b < 256) :
    fromBytesLE l < 256 ^ l.length := by
  induction l with
  | nil => simp [fromBytesLE]
  | cons b t ih =>
    have hb : b < 256 := hl b (by simp)
    have ht := ih (fun x hx => hl x (by simp [hx]))
    simp only [fromBytesLE, List.length_cons]
    have : 256 ^ (t.length + 1) = 256 ^ t.length * 256 := by ring
    omega

theorem bswap_lt (w x : Nat) : bswap w x < 256 ^ w := by
  unfold bswap toBytesBE
  have := fromBytesLE_lt (toBytesLE w x).reverse
    (fun b hb => toBytesLE_mem_lt w x b (List.mem_reverse.mp hb))
  simpa [toBytesLE_length] using this

/-! ### The device and the driver state

A fw_cfg device answers, for each selector key and each byte offset into
the selected item's data stream, one byte (`src/lib.rs`: the selector /
data register pair; selecting an item rewinds the hardware read cursor,
and each data-register read yields the next byte of the selected item).
The driver
session (`FwCfg` in `src/lib.rs`, fields `mode` and `feature_bitmap`) is
modelled by `St`: the transport mode is abstracted away (both transports
implement the same select/read contract), and the session carries the
shared hardware cursor (`selected`, `pos`) plus the memoized feature
bitmap `fb`.  Every operation additionally returns the list of hardware
accesses it performed, in order. -/

structure Device where
  item : Nat → Nat → Nat

structure St where
  selected : Nat
  pos : Nat
  fb : Option Nat
deriving DecidableEq, Repr

inductive Event where
  | select (key : Nat)
  | readData (n : Nat)
  | dmaHigh (w : Nat)
  | dmaLow (w : Nat)
deriving DecidableEq, Repr

inductive FwCfgError where
  | InvalidSignature
deriving DecidableEq, Repr

inductive FwCfgWriteError where
  | DmaNotAvailable
  | DmaFailed
deriving DecidableEq, Repr

def SIGNATURE : Nat := 0x0000
def FEATURE_BITMAP : Nat := 0x0001
def DIR : Nat := 0x0019

def SIGNATURE_DATA : List Nat := [0x51, 0x45, 0x4D, 0x55]

def HAS_DMA : Nat := 2

/-- `FwCfg::select` (`src/lib.rs` line 264): write `key` to the selector
register.  Selecting rewinds the selected item's read cursor to offset 0
(fw_cfg hardware semantics relied on by every `select`-then-`read` pair
in the source). -/
def selectOp (s : St) (key : Nat) : St × List Event :=
  ({ s with selected := key, pos := 0 }, [Event.select key])

/-- `FwCfg::read` (`src/lib.rs` line 272): drain `n` bytes from the data
register, in ascending offset order, advancing the hardware cursor. -/
def readOp (dev : Device) (s : St) (n : Nat) : List Nat × St × List Event :=
  ((List.range n).map (fun i => dev.item s.selected (s.pos + i)),
   { s with pos := s.pos + n },
   [Event.readData n])

/-- `FwCfg::new_for_mode` (`src/lib.rs` lines 120-135): build the session
with an empty feature-bitmap cache, select the signature item, read 4
bytes and compare them with `b"QEMU"`. `init` is the arbitrary hardware
cursor state found at construction time. -/
def new_for_mode (dev : Device) (init : St) : Except FwCfgError St × List Event :=
  let s0 : St := { init with fb := none }
  let (s1, e1) := selectOp s0 SIGNATURE
  let (sig, s2, e2) := readOp dev s1 4
  if sig = SIGNATURE_DATA then (Except.ok s2, e1 ++ e2)
  else (Except.error FwCfgError.InvalidSignature, e1 ++ e2)

/-- `FwCfg::feature_bitmap` (`src/lib.rs` lines 139-148): return the
cached feature bitmap, or select the feature item, read 4 bytes,
decode them little-endian and memoize the value. -/
def feature_bitmap (dev : Device) (s : St) : Nat × St × List Event :=
  match s.fb with
  | some v => (v, s, [])
  | none =>
    let (s1, e1) := selectOp s FEATURE_BITMAP
    let (buf, s2, e2) := readOp dev s1 4
    let v := fromBytesLE buf
    (v, { s2 with fb := some v }, e1 ++ e2)

/-- The feature-bitmap value a call to `FwCfg::feature_bitmap` yields on
state `s`: the cached value if present, the device's item `0x0001`
decoded little-endian otherwise. -/
def featureBitmapValue (dev : Device) (s : St) : Nat :=
  (feature_bitmap dev s).1

/-- The trace `FwCfg::feature_bitmap` produces: nothing when the bitmap
is cached, one selector write of key `0x0001` and one 4-byte read
otherwise. -/
def featureTrace (s : St) : List Event :=
  match s.fb with
  | some _ => []
  | none => [Event.select FEATURE_BITMAP, Event.readData 4]

/-! ### The directory record codec (`FwCfgFile`, `src/lib.rs` lines 288-330)

The Rust struct is `#[repr(C)] { size_be: u32, key_be: u16, _reserved:
u16, name_bytes: [u8; 56] }`, 64 bytes, filled by reading its raw memory
(`as_mut_bytes`).  On the little-endian target the stored `size_be` is
the little-endian decoding of record bytes 0..4, and the accessors apply
`from_be` (a byte swap). -/

structure FwCfgFile where
  size_be : Nat
  key_be : Nat
  reserved : Nat
  name_bytes : List Nat
deriving DecidableEq, Repr

instance : Inhabited FwCfgFile :=
  ⟨{ size_be := 0, key_be := 0, reserved := 0, name_bytes := List.replicate 56 0 }⟩

/-- Filling the `#[repr(C)]` struct from its 64 raw memory bytes
(`FwCfgFile::as_mut_bytes`, `src/lib.rs` lines 325-329, on the
little-endian target). -/
def FwCfgFile.ofBytes (b : List Nat) : FwCfgFile :=
  { size_be := fromBytesLE (b.take 4)
    key_be := fromBytesLE ((b.drop 4).take 2)
    reserved := fromBytesLE ((b.drop 6).take 2)
    name_bytes := (b.drop 8).take 56 }

/-- `FwCfgFile::size` (`src/lib.rs` line 311): `u32::from_be(size_be)`. -/
def FwCfgFile.size (f : FwCfgFile) : Nat := bswap 4 f.size_be

/-- `FwCfgFile::key` (`src/lib.rs` line 315): `u16::from_be(key_be)`. -/
def FwCfgFile.key (f : FwCfgFile) : Nat := bswap 2 f.key_be

/-- `FwCfgFile::name` (`src/lib.rs` lines 320-323): the name bytes before
the first NUL, or all of them when no NUL occurs (`split(b == 0).next()`).
Names are compared bytewise (Rust `&str` equality is byte equality of the
UTF-8 bytes). -/
def FwCfgFile.name (f : FwCfgFile) : List Nat := f.name_bytes.takeWhile (fun b => b ≠ 0)

/-- Re-encoding a size/key/name triple as a 64-byte directory record per
the wire layout (big-endian size then key, two reserved bytes, the name
NUL-padded to 56 bytes); used to state the round-trip claim. -/
def encodeRecord (size key : Nat) (name : List Nat) : List Nat :=
  toBytesBE 4 size ++ toBytesBE 2 key ++ [0, 0] ++
    (name ++ List.replicate (56 - name.length) 0)

/-! ### Directory enumeration (`FwCfg::iter_files`, `src/lib.rs` 151-164) -/

/-- The select-directory-and-read-count phase of `iter_files`: select key
`0x0019`, read 4 bytes, decode them big-endian (`u32::from_be_bytes`). -/
def iterFilesInit (dev : Device) (s : St) : Nat × St × List Event :=
  let (s1, e1) := selectOp s DIR
  let (buf, s2, e2) := readOp dev s1 4
  (fromBytesBE buf, s2, e1 ++ e2)

/-- One step of the `iter_files` iterator: read 64 bytes from the current
stream position into a fresh `FwCfgFile`. -/
def readOneFile (dev : Device) (s : St) : FwCfgFile × St × List Event :=
  let (bytes, s1, e1) := readOp dev s 64
  (FwCfgFile.ofBytes bytes, s1, e1)

/-- Consuming `n` entries of the `iter_files` iterator in order. -/
def readFilesLoop (dev : Device) : St → Nat → List FwCfgFile × St × List Event
  | s, 0 => ([], s, [])
  | s, n + 1 =>
    let (f, s1, e1) := readOneFile dev s
    let (fs, s2, e2) := readFilesLoop dev s1 n
    (f :: fs, s2, e1 ++ e2)

/-- `FwCfg::iter_files` consumed to the end: init phase, then one 64-byte
read per entry, `count` times. -/
def iter_files (dev : Device) (s : St) : List FwCfgFile × St × List Event :=
  let (count, s1, e1) := iterFilesInit dev s
  let (fs, s2, e2) := readFilesLoop dev s1 count
  (fs, s2, e1 ++ e2)

/-- The directory item count: device item `0x0019`, bytes 0..4, decoded
big-endian. -/
def dirCount (dev : Device) : Nat :=
  fromBytesBE ((List.range 4).map (fun i => dev.item DIR i))

/-- The decoded 64-byte directory record at byte offset `pos` of item
`key`. -/
def entryAt (dev : Device) (key pos : Nat) : FwCfgFile :=
  FwCfgFile.ofBytes ((List.range 64).map (fun j => dev.item key (pos + j)))

/-- The decoded directory: entry `i` is the 64-byte record at offset
`4 + 64 * i` of the directory item. -/
def dirEntries (dev : Device) : List FwCfgFile :=
  (List.range (dirCount dev)).map (fun i => entryAt dev DIR (4 + 64 * i))

/-! ### File lookup (`FwCfg::find_files` / `find_file`, `src/lib.rs` 184-214)

A slot is one `(&str, Option<FwCfgFile>)` tuple: the requested name (as
its UTF-8 bytes) and the result cell. -/

abbrev Slot := List Nat × Option FwCfgFile

/-- The body of the inner `for` loop of `find_files` on one slot: if the
entry's name equals the requested name, overwrite the result cell. -/
def updateOne (f : FwCfgFile) (sl : Slot) : Slot :=
  if f.name = sl.1 then (sl.1, some f) else sl

def updateSlots (f : FwCfgFile) (slots : List Slot) : List Slot :=
  slots.map (updateOne f)

/-- Whether processing entry `f` sets `changed` in `find_files`: some
slot's requested name equals the entry's name. -/
def changedB (f : FwCfgFile) (slots : List Slot) : Bool :=
  slots.any (fun sl => f.name = sl.1)

/-- The early-exit test of `find_files`: every slot holds `Some`. -/
def allFilled (slots : List Slot) : Bool :=
  slots.all (fun sl => sl.2.isSome)

/-- The `for file in self.iter_files()` loop of `find_files`, reading at
most `n` further entries from the device: read one entry, update every
matching slot, and return as soon as a change left every slot filled. -/
def findFilesLoop (dev : Device) : St → List Slot → Nat → List Slot × St × List Event
  | s, slots, 0 => (slots, s, [])
  | s, slots, n + 1 =>
    let (f, s1, e1) := readOneFile dev s
    let slots' := updateSlots f slots
    if changedB f slots && allFilled slots' then (slots', s1, e1)
    else
      let (r, s2, e2) := findFilesLoop dev s1 slots' n
      (r, s2, e1 ++ e2)

/-- `FwCfg::find_files`: enumerate the directory once, updating the slots,
stopping early when possible.  The lazy iterator performs reads only for
the entries actually consumed, so an early return stops the reads too. -/
def find_files (dev : Device) (s : St) (slots : List Slot) : List Slot × St × List Event :=
  let (count, s1, e1) := iterFilesInit dev s
  let (r, s2, e2) := findFilesLoop dev s1 slots count
  (r, s2, e1 ++ e2)

/-- `FwCfg::find_file`: the one-slot case of `find_files`. -/
def find_file (dev : Device) (s : St) (name : List Nat) :
    Option FwCfgFile × St × List Event :=
  let (slots, s', e) := find_files dev s [(name, none)]
  ((slots.headD (name, none)).2, s', e)

/-- Pure counterpart of `findFilesLoop` over an already-decoded entry
list; returns the final slots and the number of entries scanned. -/
def findFilesSpec (slots : List Slot) : List FwCfgFile → List Slot × Nat
  | [] => (slots, 0)
  | f :: rest =>
    let slots' := updateSlots f slots
    if changedB f slots && allFilled slots' then (slots', 1)
    else
      let (r, k) := findFilesSpec slots' rest
      (r, k + 1)

/-- What one slot holds after scanning `scanned` entries in order: the
last matching entry, or the slot's original value if none matches. -/
def slotAfter (scanned : List FwCfgFile) (sl : Slot) : Slot :=
  (sl.1, scanned.foldl (fun acc f => if f.name = sl.1 then some f else acc) sl.2)

/-- The early-stop condition of the `find_files` loop, expressed over the
decoded entry list: processing entry `j` matched some slot's requested
name, and after entries `0..j` every slot holds a value. -/
def stopAt (slots : List Slot) (es : List FwCfgFile) (j : Nat) : Bool :=
  changedB (es.getD j default) slots &&
    allFilled (slots.map (slotAfter (es.take (j + 1))))

/-! ### Bounded read (`FwCfg::read_file_to_buffer`, `src/lib.rs` 221-225) -/

/-- `FwCfg::read_file_to_buffer`: select the descriptor's key, then read
`min(file.size(), buffer.len())` bytes into the buffer's front; the rest
of the buffer is untouched.  The buffer is a byte list; its returned
value is the overwritten front followed by the untouched back. -/
def read_file_to_buffer (dev : Device) (s : St) (file : FwCfgFile)
    (buffer : List Nat) : List Nat × St × List Event :=
  let len := min file.size buffer.length
  let (s1, e1) := selectOp s file.key
  let (bytes, s2, e2) := readOp dev s1 len
  (bytes ++ buffer.drop len, s2, e1 ++ e2)

/-! ### DMA write (`FwCfg::write_to_file`, `src/lib.rs` 239-262, the
`FwCfgDmaAccess` descriptor, 402-426, and
`MemoryMappedDevice::start_dma`, 377-395)

The descriptor is `#[repr(C)] { control_be: u32, length_be: u32,
address_be: u64 }` — 16 bytes, no padding; `new` stores each field
`to_be` (a byte swap on the little-endian target).  The device mutates
`control_be` asynchronously: the sequence of raw `u32` values the
volatile polls observe is an oracle parameter `ctrlRaw`. -/

structure FwCfgDmaAccess where
  control_be : Nat
  length_be : Nat
  address_be : Nat
deriving DecidableEq, Repr

namespace FwCfgDmaAccess

def ERROR : Nat := 1
def SELECT : Nat := 8
def WRITE : Nat := 16

/-- `FwCfgDmaAccess::new` (`src/lib.rs` 415-421): store `control`,
`length` and the buffer address big-endian.  The `u32::try_from(length)`
and `u64::try_from(ptr)` unwraps panic when out of range; a panic is
modelled as `none`. -/
def new (control ptr length : Nat) : Option FwCfgDmaAccess :=
  if length < 2 ^ 32 ∧ ptr < 2 ^ 64 then
    some { control_be := bswap 4 control
           length_be := bswap 4 length
           address_be := bswap 8 ptr }
  else none

/-- The 16-byte memory image of the `#[repr(C)]` descriptor on the
little-endian target: the little-endian bytes of each stored field, in
field order, with no padding. -/
def wireBytes (a : FwCfgDmaAccess) : List Nat :=
  toBytesLE 4 a.control_be ++ toBytesLE 4 a.length_be ++ toBytesLE 8 a.address_be

/-- `FwCfgDmaAccess::read_control` (`src/lib.rs` 423-426):
`u32::from_be` of one volatile read of the control field. -/
def read_control (raw : Nat) : Nat := bswap 4 raw

end FwCfgDmaAccess

/-- `MemoryMappedDevice::start_dma` (`src/lib.rs` 377-395): write the
descriptor's 64-bit address to the DMA trigger register as two 32-bit
volatile stores of `to_be` halves — high half first, then (the trigger)
the low half. -/
def start_dma_trace (descAddr : Nat) : List Event :=
  [Event.dmaHigh (bswap 4 (descAddr / 2 ^ 32 % 2 ^ 32)),
   Event.dmaLow (bswap 4 (descAddr % 2 ^ 32))]

/-- The feature-check / descriptor-construction / trigger phase of
`write_to_file` (`src/lib.rs` 239-252), up to but not including the poll
loop.  On the error path (`DmaNotAvailable`) nothing past the feature
bitmap is touched; on the success path it returns the constructed
descriptor (`none` when `FwCfgDmaAccess::new` panics). -/
def write_to_file_pre (dev : Device) (s : St) (file : FwCfgFile)
    (dataPtr dataLen : Nat) :
    Except FwCfgWriteError (Option FwCfgDmaAccess) × St × List Event :=
  let fbr := feature_bitmap dev s
  if fbr.1 &&& HAS_DMA = 0 then
    (Except.error FwCfgWriteError.DmaNotAvailable, fbr.2.1, fbr.2.2)
  else
    let control := file.key <<< 16 ||| FwCfgDmaAccess.WRITE ||| FwCfgDmaAccess.SELECT
    (Except.ok (FwCfgDmaAccess.new control dataPtr dataLen), fbr.2.1, fbr.2.2)

/-- One test of the poll loop body (`src/lib.rs` 253-261): `from_be` the
raw control value; the ERROR bit (checked first) means `DmaFailed`, an
exact zero means success, anything else keeps polling. -/
def pollExit (raw : Nat) : Option (Except FwCfgWriteError Unit) :=
  let control := FwCfgDmaAccess.read_control raw
  if control &&& FwCfgDmaAccess.ERROR ≠ 0 then
    some (Except.error FwCfgWriteError.DmaFailed)
  else if control = 0 then some (Except.ok ())
  else none

/-- The poll loop returns `r` after observing the first `n` raw control
values `ctrlRaw 0 .. ctrlRaw (n-1)` without exiting and exiting on
`ctrlRaw n`. -/
def pollFirst (ctrlRaw : Nat → Nat) (n : Nat) (r : Except FwCfgWriteError Unit) : Prop :=
  pollExit (ctrlRaw n) = some r ∧ ∀ m < n, pollExit (ctrlRaw m) = none

/-- Big-step result relation for `FwCfg::write_to_file`: `r` is a value
the call can return, with final session state `s'` and hardware trace
`tr`, when the device's feature item is as in `dev`, the descriptor is
allocated at `descAddr` and the polled raw control values are `ctrlRaw`.
The unbounded busy-wait makes this a relation: when no polled value ever
exits, no `r` is related (the call never returns). -/
def write_to_file_returns (dev : Device) (s : St) (file : FwCfgFile)
    (dataPtr dataLen descAddr : Nat) (ctrlRaw : Nat → Nat)
    (r : Except FwCfgWriteError Unit) (s' : St) (tr : List Event) : Prop :=
  let pre := write_to_file_pre dev s file dataPtr dataLen
  match pre.1 with
  | Except.error e => r = Except.error e ∧ s' = pre.2.1 ∧ tr = pre.2.2
  | Except.ok none => False
  | Except.ok (some _) =>
    s' = pre.2.1 ∧ tr = pre.2.2 ++ start_dma_trace descAddr ∧
      ∃ n, pollFirst ctrlRaw n r

/-! ### Concrete fixtures for witnesses and counterexamples -/

/-- A directory item's bytes: one entry, size 11, key `0x20`, name `"A"`. -/
def sampleDirBytes : List Nat :=
  [0, 0, 0, 1] ++ ([0, 0, 0, 11] ++ [0, 0x20] ++ [0, 0] ++ (65 :: List.replicate 55 0))

/-- A device with a valid signature, feature bitmap `2` (DMA available)
and the one-entry directory `sampleDirBytes`. -/
def sampleDev : Device :=
  ⟨fun k i =>
    if k = 25 then sampleDirBytes.getD i 0
    else if k = 0 then SIGNATURE_DATA.getD i 0
    else if k = 1 then [2, 0, 0, 0].getD i 0
    else 0⟩

/-- A device all of whose items read as zero; in particular its feature
bitmap is `0`, so DMA is unavailable. -/
def devNoDma : Device := ⟨fun _ _ => 0⟩

/-- A device with two directory entries both named `"A"`: the first with
size 1 and key 3, the second with size 2 and key 4. -/
def dupDev : Device :=
  ⟨fun k i =>
    if k = 25 then
      ([0, 0, 0, 2] ++
        ([0, 0, 0, 1] ++ [0, 3] ++ [0, 0] ++ (65 :: List.replicate 55 0)) ++
        ([0, 0, 0, 2] ++ [0, 4] ++ [0, 0] ++ (65 :: List.replicate 55 0))).getD i 0
    else if k = 0 then SIGNATURE_DATA.getD i 0
    else 0⟩

/-- A 64-byte directory record whose 56 name bytes contain no NUL. -/
def noNulRecord : List Nat := List.replicate 64 1

/-- A 64-byte directory record: size 11, key `0x20`, reserved `0xAB 0xCD`,
name `"AB"` NUL-padded. -/
def sampleRecord : List Nat :=
  [0, 0, 0, 11] ++ [0, 0x20] ++ [0xAB, 0xCD] ++ (65 :: 66 :: List.replicate 54 0)

/-! ## Theorems -/

/-- Claim C2: session construction selects the signature item (key
`0x0000`), reads exactly 4 bytes, and compares them with the ASCII bytes
of `"QEMU"`; on mismatch it returns `InvalidSignature` and no session
value, on match it returns a usable session — and in either case the
only hardware accesses are the one selector write of key `0x0000` and
one 4-byte data read (no directory or file access). -/
theorem new_signature_check (dev : Device) (init : St) :
    new_for_mode dev init =
      ((if (List.range 4).map (fun i => dev.item SIGNATURE i) = SIGNATURE_DATA
        then Except.ok { selected := SIGNATURE, pos := 4, fb := none }
        else Except.error FwCfgError.InvalidSignature),
       [Event.select SIGNATURE, Event.readData 4]) := by
  simp only [new_for_mode, selectOp, readOp, Nat.zero_add]
  split <;> simp_all

/-- Claim C4: `read_file_to_buffer` selects the descriptor's key and
reads exactly `min(file.size, buffer.length)` bytes into the buffer's
front; every byte at index `min` or beyond keeps its old value (the
returned buffer is the read bytes followed by `buffer.drop min`), the
buffer's length is unchanged, and the only hardware accesses are the
selector write and one `min`-byte data read. -/
theorem read_file_to_buffer_correct (dev : Device) (s : St) (file : FwCfgFile)
    (buffer : List Nat) :
    read_file_to_buffer dev s file buffer =
      ((List.range (min file.size buffer.length)).map (fun i => dev.item file.key i)
         ++ buffer.drop (min file.size buffer.length),
       { selected := file.key, pos := min file.size buffer.length, fb := s.fb },
       [Event.select file.key, Event.readData (min file.size buffer.length)]) ∧
    (read_file_to_buffer dev s file buffer).1.length = buffer.length := by
  constructor
  · simp only [read_file_to_buffer, selectOp, readOp, Nat.zero_add, List.singleton_append]
  · simp only [read_file_to_buffer, selectOp, readOp]
    simp only [List.length_append, List.length_map, List.length_range, List.length_drop]
    omega

theorem readOneFile_eq (dev : Device) (s : St) :
    readOneFile dev s =
      (entryAt dev s.selected s.pos, { s with pos := s.pos + 64 },
       [Event.readData 64]) := by
  simp only [readOneFile, readOp, entryAt]

theorem readFilesLoop_eq (dev : Device) (n : Nat) : ∀ s : St,
    readFilesLoop dev s n =
      ((List.range n).map (fun i => entryAt dev s.selected (s.pos + 64 * i)),
       { s with pos := s.pos + 64 * n },
       List.replicate n (Event.readData 64)) := by
  induction n with
  | zero => intro s; simp [readFilesLoop]
  | succ n ih =>
    intro s
    have h1 : ∀ i : Nat, s.pos + 64 + 64 * i = s.pos + 64 * (i + 1) := by
      intro i; omega
    have h2 : s.pos + 64 + 64 * n = s.pos + 64 * (n + 1) := by omega
    simp only [readFilesLoop, readOneFile_eq, ih, List.range_succ_eq_map,
      List.map_cons, List.map_map, List.replicate_succ, Nat.mul_zero, Nat.add_zero,
      Function.comp_def, h1, h2, Nat.succ_eq_add_one, List.cons_append,
      List.nil_append, List.singleton_append]

/-- Claim C8: directory enumeration selects the directory item (key
`0x0019`), reads a 4-byte big-endian item count `n`, and then yields
exactly `n` decoded file descriptors, each obtained by exactly one
64-byte read at the current stream position — entry `i` is the decode of
the directory item's bytes `4 + 64*i .. 4 + 64*i + 63`, in directory
order with no skipping or random access. -/
theorem iter_files_correct (dev : Device) (s : St) :
    iter_files dev s =
      (dirEntries dev,
       { selected := DIR, pos := 4 + 64 * dirCount dev, fb := s.fb },
       Event.select DIR :: Event.readData 4 :: List.replicate (dirCount dev) (Event.readData 64)) ∧
    (dirEntries dev).length = dirCount dev ∧
    dirEntries dev =
      (List.range (dirCount dev)).map
        (fun i => FwCfgFile.ofBytes ((List.range 64).map
          (fun j => dev.item DIR (4 + 64 * i + j)))) := by
  refine ⟨?_, by simp [dirEntries], rfl⟩
  simp only [iter_files, iterFilesInit, selectOp, readOp, readFilesLoop_eq,
    Nat.zero_add, dirEntries, dirCount, List.singleton_append, List.cons_append,
    List.nil_append]

theorem toBytesBE_fromBytesBE (w : Nat) (l : List Nat) (hw : l.length = w)
    (hl : ∀ b ∈ l, b < 256) : toBytesBE w (fromBytesBE l) = l := by
  unfold toBytesBE fromBytesBE
  have hrev : l.reverse.length = w := by simp [hw]
  have h := toBytesLE_fromBytesLE l.reverse (fun b hb => hl b (List.mem_reverse.mp hb))
  rw [hrev] at h
  rw [h, List.reverse_reverse]

theorem ofBytes_size (r : List Nat) (hlen : 4 ≤ r.length) (hb : ∀ b ∈ r, b < 256) :
    (FwCfgFile.ofBytes r).size = fromBytesBE (r.take 4) := by
  have h4 : (r.take 4).length = 4 := by
    simp only [List.length_take]; omega
  have h := bswap_fromBytesLE (r.take 4) (fun b hbm => hb b (List.take_subset _ _ hbm))
  rw [h4] at h
  simpa [FwCfgFile.ofBytes, FwCfgFile.size] using h

theorem ofBytes_key (r : List Nat) (hlen : 6 ≤ r.length) (hb : ∀ b ∈ r, b < 256) :
    (FwCfgFile.ofBytes r).key = fromBytesBE ((r.drop 4).take 2) := by
  have h2 : ((r.drop 4).take 2).length = 2 := by
    simp only [List.length_take, List.length_drop]; omega
  have h := bswap_fromBytesLE ((r.drop 4).take 2)
    (fun b hbm => hb b (List.drop_subset _ _ (List.take_subset _ _ hbm)))
  rw [h2] at h
  simpa [FwCfgFile.ofBytes, FwCfgFile.key] using h

theorem pad_take (l : List Nat) :
    (l.takeWhile (fun b => b ≠ 0) ++
        List.replicate (l.length - (l.takeWhile (fun b => b ≠ 0)).length) 0).take
      ((l.takeWhile (fun b => b ≠ 0)).length + 1) =
    l.take ((l.takeWhile (fun b => b ≠ 0)).length + 1) := by
  induction l with
  | nil => simp
  | cons b t ih =>
    by_cases hb : b = 0
    · subst hb
      simp [List.takeWhile_cons]
    · have hdec : (fun x => decide (x ≠ 0)) b = true := by
        simp [hb]
      simp only [List.takeWhile_cons, hdec, if_true, List.length_cons,
        List.cons_append, List.take_succ_cons, Nat.succ_sub_succ]
      rw [ih]

/-- Claim C5: decoding a 64-byte directory record takes the size from the
big-endian u32 at offsets 0..4, the key from the big-endian u16 at
offsets 4..6, and the name from offsets 8..64 up to (excluding) the first
NUL — all 56 bytes when no NUL occurs; re-encoding the decoded size, key
and name (NUL-padded) reproduces the original record bit-for-bit except
the reserved bytes at offsets 6..8 and any name padding beyond the
terminating NUL: the re-encoding is 64 bytes, agrees with the record on
bytes 0..6, and agrees on the name region through the terminating NUL. -/
theorem record_decode_encode (r : List Nat) (hlen : r.length = 64)
    (hb : ∀ b ∈ r, b < 256) :
    (FwCfgFile.ofBytes r).size = fromBytesBE (r.take 4) ∧
    (FwCfgFile.ofBytes r).key = fromBytesBE ((r.drop 4).take 2) ∧
    (FwCfgFile.ofBytes r).name = ((r.drop 8).take 56).takeWhile (fun b => b ≠ 0) ∧
    (encodeRecord (FwCfgFile.ofBytes r).size (FwCfgFile.ofBytes r).key
        (FwCfgFile.ofBytes r).name).length = 64 ∧
    (encodeRecord (FwCfgFile.ofBytes r).size (FwCfgFile.ofBytes r).key
        (FwCfgFile.ofBytes r).name).take 6 = r.take 6 ∧
    ((encodeRecord (FwCfgFile.ofBytes r).size (FwCfgFile.ofBytes r).key
        (FwCfgFile.ofBytes r).name).drop 8).take ((FwCfgFile.ofBytes r).name.length + 1) =
      (r.drop 8).take ((FwCfgFile.ofBytes r).name.length + 1) := by
  have hsize := ofBytes_size r (by omega) hb
  have hkey := ofBytes_key r (by omega) hb
  have hname : (FwCfgFile.ofBytes r).name = ((r.drop 8).take 56).takeWhile (fun b => b ≠ 0) := rfl
  have hbe4 : toBytesBE 4 (FwCfgFile.ofBytes r).size = r.take 4 := by
    rw [hsize]
    refine toBytesBE_fromBytesBE 4 (r.take 4) (by simp [List.length_take]; omega)
      (fun b hbm => hb b (List.take_subset _ _ hbm))
  have hbe2 : toBytesBE 2 (FwCfgFile.ofBytes r).key = (r.drop 4).take 2 := by
    rw [hkey]
    refine toBytesBE_fromBytesBE 2 ((r.drop 4).take 2)
      (by simp [List.length_take, List.length_drop]; omega)
      (fun b hbm => hb b (List.drop_subset _ _ (List.take_subset _ _ hbm)))
  have hnmlen : (FwCfgFile.ofBytes r).name.length ≤ 56 := by
    rw [hname]
    calc (((r.drop 8).take 56).takeWhile (fun b => b ≠ 0)).length
        ≤ ((r.drop 8).take 56).length := (List.takeWhile_prefix _).length_le
      _ ≤ 56 := by simp [List.length_take]
  refine ⟨hsize, hkey, hname, ?_, ?_, ?_⟩
  · simp only [encodeRecord, List.length_append, List.length_replicate,
      toBytesBE, List.length_reverse, toBytesLE_length, List.length_cons,
      List.length_nil]
    omega
  · simp only [encodeRecord, hbe4, hbe2]
    have h6 : r.take 6 = r.take 4 ++ (r.drop 4).take 2 := by
      have h42 : (4 : Nat) + 2 = 6 := rfl
      rw [← h42, List.take_add]
    have h6l : (r.take 4 ++ (r.drop 4).take 2).length = 6 := by
      simp only [List.length_append, List.length_take, List.length_drop]
      omega
    rw [h6, List.append_assoc, List.take_left' h6l]
  · simp only [encodeRecord, hbe4, hbe2]
    have h8l : (r.take 4 ++ (r.drop 4).take 2 ++ [0, 0]).length = 8 := by
      simp only [List.length_append, List.length_take, List.length_drop,
        List.length_cons, List.length_nil]
      omega
    rw [List.drop_left' h8l]
    have hfield : ((r.drop 8).take 56).length = 56 := by
      simp [List.length_take, List.length_drop]; omega
    have hpt := pad_take ((r.drop 8).take 56)
    rw [hfield] at hpt
    rw [hname, hpt, List.take_take]
    have hd8 : (r.drop 8).length = 56 := by simp [List.length_drop]; omega
    rcases Nat.lt_or_ge ((((r.drop 8).take 56).takeWhile (fun b => b ≠ 0)).length) 56 with h | h
    · have : min ((((r.drop 8).take 56).takeWhile (fun b => b ≠ 0)).length + 1) 56 =
          (((r.drop 8).take 56).takeWhile (fun b => b ≠ 0)).length + 1 := by omega
      rw [this]
    · have h56 : (((r.drop 8).take 56).takeWhile (fun b => b ≠ 0)).length = 56 := by
        have := hnmlen
        rw [hname] at this
        omega
      rw [h56]
      rw [List.take_of_length_le (by omega), List.take_of_length_le (by omega)]

/-- Claim C9 (amended): every file descriptor decoded from a 64-byte
directory record has a name that contains no NUL byte and is at most 56
bytes long — at most 55 bytes when the record's 56-byte name field
contains a NUL terminator, and exactly 56 bytes when it contains none. -/
theorem decoded_name_bound (b : List Nat) (hlen : b.length = 64) :
    (FwCfgFile.ofBytes b).name.length ≤ 56 ∧
    0 ∉ (FwCfgFile.ofBytes b).name ∧
    (0 ∈ (b.drop 8).take 56 → (FwCfgFile.ofBytes b).name.length ≤ 55) ∧
    (0 ∉ (b.drop 8).take 56 → (FwCfgFile.ofBytes b).name.length = 56) := by
  have hfield : ((b.drop 8).take 56).length = 56 := by
    simp only [List.length_take, List.length_drop]
    omega
  have hname : (FwCfgFile.ofBytes b).name =
      ((b.drop 8).take 56).takeWhile (fun x => x ≠ 0) := rfl
  have hle : (FwCfgFile.ofBytes b).name.length ≤ 56 := by
    rw [hname]
    calc (((b.drop 8).take 56).takeWhile (fun x => x ≠ 0)).length
        ≤ ((b.drop 8).take 56).length := (List.takeWhile_prefix _).length_le
      _ = 56 := hfield
  refine ⟨hle, ?_, ?_, ?_⟩
  · intro hmem
    have hp := List.mem_takeWhile_imp hmem
    simp at hp
  · intro hzero
    rw [hname]
    by_contra hgt
    push_neg at hgt
    have h56 : (((b.drop 8).take 56).takeWhile (fun x => x ≠ 0)).length = 56 := by
      rw [hname] at hle
      omega
    have heq : ((b.drop 8).take 56).takeWhile (fun x => x ≠ 0) = (b.drop 8).take 56 :=
      (List.takeWhile_prefix _).eq_of_length (by rw [h56, hfield])
    have hall := List.takeWhile_eq_self_iff.mp heq 0 hzero
    simp at hall
  · intro hno
    rw [hname]
    have heq : ((b.drop 8).take 56).takeWhile (fun x => x ≠ 0) = (b.drop 8).take 56 := by
      rw [List.takeWhile_eq_self_iff]
      intro x hx
      have hxne : x ≠ 0 := fun h0 => hno (h0 ▸ hx)
      simp [hxne]
    rw [heq, hfield]

/-- Claim C9 counterexample: the 64-byte record whose name field has no
NUL decodes to a 56-byte name, refuting the claimed 55-byte bound. -/
theorem decoded_name_55_cex :
    (FwCfgFile.ofBytes noNulRecord).name.length = 56 ∧
    ¬ (FwCfgFile.ofBytes noNulRecord).name.length ≤ 55 := by
  constructor <;> decide

/-- Claim C9 witness: both conditional bounds applied concretely — the
sample record's name field contains a NUL and its 2-byte name is at most
55 bytes; the no-NUL record's name is exactly 56 bytes. -/
theorem decoded_name_bound_witness :
    sampleRecord.length = 64 ∧ 0 ∈ (sampleRecord.drop 8).take 56 ∧
    (FwCfgFile.ofBytes sampleRecord).name.length ≤ 55 ∧
    noNulRecord.length = 64 ∧ 0 ∉ (noNulRecord.drop 8).take 56 ∧
    (FwCfgFile.ofBytes noNulRecord).name.length = 56 :=
  ⟨by decide, by decide,
   (decoded_name_bound sampleRecord (by decide)).2.2.1 (by decide),
   by decide, by decide,
   (decoded_name_bound noNulRecord (by decide)).2.2.2 (by decide)⟩

theorem feature_bitmap_trace (dev : Device) (s : St) :
    (feature_bitmap dev s).2.2 = featureTrace s := by
  cases hfb : s.fb <;>
    simp [feature_bitmap, featureTrace, selectOp, readOp, hfb]

/-- Claim C1 (amended): a `write_to_file` call on a session whose
effective feature bitmap has the DMA bit (bit 1) clear returns
`DmaNotAvailable`, and the only hardware accesses it performs are the
lazy fetch of the feature bitmap itself — one selector write of key
`0x0001` and one 4-byte data read when the bitmap is not yet cached,
nothing at all when it is cached; in particular it performs no DMA
trigger write and never touches the file's key. -/
theorem write_dma_unavailable (dev : Device) (s : St) (file : FwCfgFile)
    (dataPtr dataLen : Nat)
    (h : featureBitmapValue dev s &&& HAS_DMA = 0) :
    write_to_file_pre dev s file dataPtr dataLen =
      (Except.error FwCfgWriteError.DmaNotAvailable,
       (feature_bitmap dev s).2.1, featureTrace s) ∧
    (∀ descAddr ctrlRaw r s' tr,
      write_to_file_returns dev s file dataPtr dataLen descAddr ctrlRaw r s' tr →
        r = Except.error FwCfgWriteError.DmaNotAvailable ∧
        s' = (feature_bitmap dev s).2.1 ∧ tr = featureTrace s) := by
  have hpre : write_to_file_pre dev s file dataPtr dataLen =
      (Except.error FwCfgWriteError.DmaNotAvailable,
       (feature_bitmap dev s).2.1, featureTrace s) := by
    rw [← feature_bitmap_trace dev s]
    simp only [write_to_file_pre, featureBitmapValue] at h ⊢
    rw [if_pos h]
  refine ⟨hpre, ?_⟩
  intro descAddr ctrlRaw r s' tr hret
  simp only [write_to_file_returns, hpre] at hret
  exact ⟨hret.1, hret.2.1, hret.2.2⟩

/-- Claim C1 counterexample: on a fresh session (feature bitmap not yet
cached) against a device whose feature bitmap is 0, `write_to_file`
returns `DmaNotAvailable` but performs two hardware accesses — a
selector write of key `0x0001` and a 4-byte data read — refuting the
claim that no register writes or reads at all are issued. -/
theorem write_dma_unavailable_cex :
    (write_to_file_pre devNoDma { selected := 0, pos := 0, fb := none }
        default 0 0).1 = Except.error FwCfgWriteError.DmaNotAvailable ∧
    (write_to_file_pre devNoDma { selected := 0, pos := 0, fb := none }
        default 0 0).2.2 = [Event.select FEATURE_BITMAP, Event.readData 4] ∧
    (write_to_file_pre devNoDma { selected := 0, pos := 0, fb := none }
        default 0 0).2.2 ≠ [] := by
  refine ⟨rfl, by decide, by decide⟩

/-- Claim C1 witness: the amended theorem applied to the all-zero
device and a fresh session. -/
theorem write_dma_unavailable_witness :
    featureBitmapValue devNoDma { selected := 0, pos := 0, fb := none } &&& HAS_DMA = 0 ∧
    (write_to_file_pre devNoDma { selected := 0, pos := 0, fb := none } default 0 0 =
      (Except.error FwCfgWriteError.DmaNotAvailable,
       (feature_bitmap devNoDma { selected := 0, pos := 0, fb := none }).2.1,
       featureTrace { selected := 0, pos := 0, fb := none }) ∧
    (∀ descAddr ctrlRaw r s' tr,
      write_to_file_returns devNoDma { selected := 0, pos := 0, fb := none }
          default 0 0 descAddr ctrlRaw r s' tr →
        r = Except.error FwCfgWriteError.DmaNotAvailable ∧
        s' = (feature_bitmap devNoDma { selected := 0, pos := 0, fb := none }).2.1 ∧
        tr = featureTrace { selected := 0, pos := 0, fb := none })) :=
  ⟨by decide,
   write_dma_unavailable devNoDma { selected := 0, pos := 0, fb := none }
     default 0 0 (by decide)⟩

theorem write_pre_ok (dev : Device) (s : St) (file : FwCfgFile)
    (dataPtr dataLen : Nat)
    (hdma : featureBitmapValue dev s &&& HAS_DMA ≠ 0)
    (hlen : dataLen < 2 ^ 32) (hptr : dataPtr < 2 ^ 64) :
    (write_to_file_pre dev s file dataPtr dataLen).1 =
      Except.ok (some
        { control_be := bswap 4 (file.key <<< 16 ||| FwCfgDmaAccess.WRITE |||
            FwCfgDmaAccess.SELECT)
          length_be := bswap 4 dataLen
          address_be := bswap 8 dataPtr }) := by
  simp only [write_to_file_pre, featureBitmapValue] at hdma ⊢
  rw [if_neg hdma]
  simp only [FwCfgDmaAccess.new, if_pos (And.intro hlen hptr)]

/-- Claim C7: for a DMA write of data of length `dataLen` at address
`dataPtr` under the file's key, the constructed 16-byte descriptor holds
`control = (key << 16) | WRITE | SELECT` (`SELECT` bit 3, `WRITE` bit 4),
`length = dataLen` and `address = dataPtr`, each stored big-endian with
no padding (its memory image is exactly the three big-endian fields
concatenated, 16 bytes); and the memory-mapped transport then writes the
descriptor's own address to the DMA trigger register as two 32-bit
stores, strictly high half first then low half, each laying down the
big-endian bytes of that half. -/
theorem write_dma_descriptor_layout (dev : Device) (s : St) (file : FwCfgFile)
    (dataPtr dataLen descAddr : Nat)
    (hdma : featureBitmapValue dev s &&& HAS_DMA ≠ 0)
    (hlen : dataLen < 2 ^ 32) (hptr : dataPtr < 2 ^ 64) (haddr : descAddr < 2 ^ 64) :
    ∃ acc : FwCfgDmaAccess,
      (write_to_file_pre dev s file dataPtr dataLen).1 = Except.ok (some acc) ∧
      acc.wireBytes =
        toBytesBE 4 (file.key <<< 16 ||| FwCfgDmaAccess.WRITE ||| FwCfgDmaAccess.SELECT) ++
          toBytesBE 4 dataLen ++ toBytesBE 8 dataPtr ∧
      acc.wireBytes.length = 16 ∧
      file.key < 2 ^ 16 ∧
      start_dma_trace descAddr =
        [Event.dmaHigh (bswap 4 (descAddr / 2 ^ 32)),
         Event.dmaLow (bswap 4 (descAddr % 2 ^ 32))] ∧
      toBytesLE 4 (bswap 4 (descAddr / 2 ^ 32)) = toBytesBE 4 (descAddr / 2 ^ 32) ∧
      toBytesLE 4 (bswap 4 (descAddr % 2 ^ 32)) = toBytesBE 4 (descAddr % 2 ^ 32) := by
  refine ⟨_, write_pre_ok dev s file dataPtr dataLen hdma hlen hptr, ?_, ?_, ?_, ?_,
    toBytesLE_bswap 4 _, toBytesLE_bswap 4 _⟩
  · simp only [FwCfgDmaAccess.wireBytes, toBytesLE_bswap]
  · simp only [FwCfgDmaAccess.wireBytes, List.length_append, toBytesLE_length]
  · have := bswap_lt 2 file.key_be
    have h216 : (256 : Nat) ^ 2 = 2 ^ 16 := by norm_num
    rw [h216] at this
    exact this
  · have hdiv : descAddr / 2 ^ 32 < 2 ^ 32 := by
      have h64 : (2 : Nat) ^ 64 = 2 ^ 32 * 2 ^ 32 := by norm_num
      rw [h64] at haddr
      exact Nat.div_lt_of_lt_mul (by omega)
    simp only [start_dma_trace, Nat.mod_eq_of_lt hdiv]

theorem pollExit_cases (raw : Nat) :
    (FwCfgDmaAccess.read_control raw &&& FwCfgDmaAccess.ERROR ≠ 0 ∧
      pollExit raw = some (Except.error FwCfgWriteError.DmaFailed)) ∨
    (FwCfgDmaAccess.read_control raw &&& FwCfgDmaAccess.ERROR = 0 ∧
      FwCfgDmaAccess.read_control raw = 0 ∧ pollExit raw = some (Except.ok ())) ∨
    (FwCfgDmaAccess.read_control raw &&& FwCfgDmaAccess.ERROR = 0 ∧
      FwCfgDmaAccess.read_control raw ≠ 0 ∧ pollExit raw = none) := by
  by_cases h1 : FwCfgDmaAccess.read_control raw &&& FwCfgDmaAccess.ERROR ≠ 0
  · exact Or.inl ⟨h1, by simp only [pollExit, if_pos h1]⟩
  · push_neg at h1
    by_cases h0 : FwCfgDmaAccess.read_control raw = 0
    · refine Or.inr (Or.inl ⟨h1, h0, ?_⟩)
      simp only [pollExit, h1, ne_eq, not_true_eq_false, if_false, if_pos h0,
        not_not, reduceIte]
    · refine Or.inr (Or.inr ⟨h1, h0, ?_⟩)
      simp only [pollExit, h1, ne_eq, not_true_eq_false, if_false, if_neg h0,
        not_not, reduceIte]

theorem pollFirst_error_iff (c : Nat → Nat) :
    (∃ n, pollFirst c n (Except.error FwCfgWriteError.DmaFailed)) ↔
      (∃ n, FwCfgDmaAccess.read_control (c n) &&& FwCfgDmaAccess.ERROR ≠ 0 ∧
        ∀ m < n, FwCfgDmaAccess.read_control (c m) ≠ 0) := by
  constructor
  · rintro ⟨n, hexit, hmin⟩
    refine ⟨n, ?_, ?_⟩
    · rcases pollExit_cases (c n) with ⟨h1, _⟩ | ⟨_, _, hx⟩ | ⟨_, _, hx⟩
      · exact h1
      · rw [hx] at hexit; cases hexit
      · rw [hx] at hexit; cases hexit
    · intro m hm
      rcases pollExit_cases (c m) with ⟨_, hx⟩ | ⟨_, _, hx⟩ | ⟨_, hz, _⟩
      · rw [hmin m hm] at hx; cases hx
      · rw [hmin m hm] at hx; cases hx
      · exact hz
  · rintro ⟨n0, herr, hnz⟩
    have hP : ∃ m, (pollExit (c m)).isSome = true := by
      refine ⟨n0, ?_⟩
      rcases pollExit_cases (c n0) with ⟨_, hx⟩ | ⟨h1, _, _⟩ | ⟨h1, _, _⟩
      · simp [hx]
      · exact absurd h1 herr
      · exact absurd h1 herr
    have hspec := Nat.find_spec hP
    have hmin : ∀ m < Nat.find hP, pollExit (c m) = none := by
      intro m hm
      have hnm := Nat.find_min hP hm
      cases hx : pollExit (c m) with
      | none => rfl
      | some v => rw [hx] at hnm; simp at hnm
    have hle : Nat.find hP ≤ n0 := Nat.find_le (by
      rcases pollExit_cases (c n0) with ⟨_, hx⟩ | ⟨h1, _, _⟩ | ⟨h1, _, _⟩
      · simp [hx]
      · exact absurd h1 herr
      · exact absurd h1 herr)
    rcases pollExit_cases (c (Nat.find hP)) with ⟨_, hx⟩ | ⟨_, h0, _⟩ | ⟨_, _, hx⟩
    · exact ⟨Nat.find hP, hx, hmin⟩
    · rcases Nat.lt_or_ge (Nat.find hP) n0 with hlt | hge
      · exact absurd h0 (hnz _ hlt)
      · have heq : Nat.find hP = n0 := by omega
        rw [heq] at h0
        rw [h0] at herr
        exact absurd (by decide) herr
    · rw [hx] at hspec; cases hspec

theorem pollFirst_ok_iff (c : Nat → Nat) :
    (∃ n, pollFirst c n (Except.ok ())) ↔
      (∃ n, FwCfgDmaAccess.read_control (c n) = 0 ∧
        ∀ m < n, FwCfgDmaAccess.read_control (c m) &&& FwCfgDmaAccess.ERROR = 0) := by
  constructor
  · rintro ⟨n, hexit, hmin⟩
    refine ⟨n, ?_, ?_⟩
    · rcases pollExit_cases (c n) with ⟨_, hx⟩ | ⟨_, h0, _⟩ | ⟨_, _, hx⟩
      · rw [hx] at hexit; cases hexit
      · exact h0
      · rw [hx] at hexit; cases hexit
    · intro m hm
      rcases pollExit_cases (c m) with ⟨_, hx⟩ | ⟨h1, _, _⟩ | ⟨h1, _, _⟩
      · rw [hmin m hm] at hx; cases hx
      · exact h1
      · exact h1
  · rintro ⟨n0, hzero, hne⟩
    have hP : ∃ m, (pollExit (c m)).isSome = true := by
      refine ⟨n0, ?_⟩
      rcases pollExit_cases (c n0) with ⟨_, hx⟩ | ⟨_, _, hx⟩ | ⟨_, hz, _⟩
      · simp [hx]
      · simp [hx]
      · exact absurd hzero hz
    have hspec := Nat.find_spec hP
    have hmin : ∀ m < Nat.find hP, pollExit (c m) = none := by
      intro m hm
      have hnm := Nat.find_min hP hm
      cases hx : pollExit (c m) with
      | none => rfl
      | some v => rw [hx] at hnm; simp at hnm
    have hle : Nat.find hP ≤ n0 := Nat.find_le (by
      rcases pollExit_cases (c n0) with ⟨_, hx⟩ | ⟨_, _, hx⟩ | ⟨_, hz, _⟩
      · simp [hx]
      · simp [hx]
      · exact absurd hzero hz)
    rcases pollExit_cases (c (Nat.find hP)) with ⟨h1, _⟩ | ⟨_, _, hx⟩ | ⟨_, _, hx⟩
    · rcases Nat.lt_or_ge (Nat.find hP) n0 with hlt | hge
      · exact absurd (hne _ hlt) h1
      · have heq : Nat.find hP = n0 := by omega
        rw [heq, hzero] at h1
        simp at h1
    · exact ⟨Nat.find hP, hx, hmin⟩
    · rw [hx] at hspec; cases hspec

theorem write_returns_iff (dev : Device) (s : St) (file : FwCfgFile)
    (dataPtr dataLen descAddr : Nat) (ctrlRaw : Nat → Nat)
    (r : Except FwCfgWriteError Unit) (s' : St) (tr : List Event)
    (hdma : featureBitmapValue dev s &&& HAS_DMA ≠ 0)
    (hlen : dataLen < 2 ^ 32) (hptr : dataPtr < 2 ^ 64) :
    write_to_file_returns dev s file dataPtr dataLen descAddr ctrlRaw r s' tr ↔
      (s' = (write_to_file_pre dev s file dataPtr dataLen).2.1 ∧
       tr = (write_to_file_pre dev s file dataPtr dataLen).2.2 ++ start_dma_trace descAddr ∧
       ∃ n, pollFirst ctrlRaw n r) := by
  have hok := write_pre_ok dev s file dataPtr dataLen hdma hlen hptr
  simp only [write_to_file_returns, hok]

/-- Claim C6: once the DMA transfer is triggered, `write_to_file`
busy-polls the descriptor's control field: it returns `DmaFailed`
exactly when some polled control value has the ERROR bit (bit 0) set
with no zero value read before it; it returns success exactly when some
polled control value reads back as zero with no ERROR-bit value before
it; and when no polled value ever satisfies either condition the call
never returns — the busy-wait is unbounded. -/
theorem write_dma_poll (dev : Device) (s : St) (file : FwCfgFile)
    (dataPtr dataLen descAddr : Nat) (ctrlRaw : Nat → Nat)
    (hdma : featureBitmapValue dev s &&& HAS_DMA ≠ 0)
    (hlen : dataLen < 2 ^ 32) (hptr : dataPtr < 2 ^ 64) :
    ((∃ s' tr, write_to_file_returns dev s file dataPtr dataLen descAddr ctrlRaw
        (Except.error FwCfgWriteError.DmaFailed) s' tr) ↔
      ∃ n, FwCfgDmaAccess.read_control (ctrlRaw n) &&& FwCfgDmaAccess.ERROR ≠ 0 ∧
        ∀ m < n, FwCfgDmaAccess.read_control (ctrlRaw m) ≠ 0) ∧
    ((∃ s' tr, write_to_file_returns dev s file dataPtr dataLen descAddr ctrlRaw
        (Except.ok ()) s' tr) ↔
      ∃ n, FwCfgDmaAccess.read_control (ctrlRaw n) = 0 ∧
        ∀ m < n, FwCfgDmaAccess.read_control (ctrlRaw m) &&& FwCfgDmaAccess.ERROR = 0) ∧
    ((∀ n, pollExit (ctrlRaw n) = none) →
      ∀ r s' tr,
        ¬ write_to_file_returns dev s file dataPtr dataLen descAddr ctrlRaw r s' tr) := by
  refine ⟨?_, ?_, ?_⟩
  · constructor
    · rintro ⟨s', tr, h⟩
      exact (pollFirst_error_iff ctrlRaw).mp
        ((write_returns_iff dev s file dataPtr dataLen descAddr ctrlRaw _ s' tr
          hdma hlen hptr).mp h).2.2
    · intro hex
      exact ⟨_, _, (write_returns_iff dev s file dataPtr dataLen descAddr ctrlRaw _ _ _
        hdma hlen hptr).mpr ⟨rfl, rfl, (pollFirst_error_iff ctrlRaw).mpr hex⟩⟩
  · constructor
    · rintro ⟨s', tr, h⟩
      exact (pollFirst_ok_iff ctrlRaw).mp
        ((write_returns_iff dev s file dataPtr dataLen descAddr ctrlRaw _ s' tr
          hdma hlen hptr).mp h).2.2
    · intro hex
      exact ⟨_, _, (write_returns_iff dev s file dataPtr dataLen descAddr ctrlRaw _ _ _
        hdma hlen hptr).mpr ⟨rfl, rfl, (pollFirst_ok_iff ctrlRaw).mpr hex⟩⟩
  · intro hnone r s' tr hret
    obtain ⟨n, hfirst⟩ :=
      ((write_returns_iff dev s file dataPtr dataLen descAddr ctrlRaw r s' tr
        hdma hlen hptr).mp hret).2.2
    have hx := hfirst.1
    rw [hnone n] at hx
    cases hx

theorem updateOne_fst (f : FwCfgFile) (sl : Slot) : (updateOne f sl).1 = sl.1 := by
  unfold updateOne
  split <;> rfl

theorem slotAfter_nil (sl : Slot) : slotAfter [] sl = sl := rfl

theorem slotAfter_cons (f : FwCfgFile) (l : List FwCfgFile) (sl : Slot) :
    slotAfter (f :: l) sl = slotAfter l (updateOne f sl) := by
  unfold slotAfter updateOne
  by_cases h : f.name = sl.1 <;> simp [h]

theorem map_slotAfter_cons (f : FwCfgFile) (l : List FwCfgFile) (slots : List Slot) :
    slots.map (slotAfter (f :: l)) = (updateSlots f slots).map (slotAfter l) := by
  unfold updateSlots
  rw [List.map_map]
  exact List.map_congr_left (fun sl _ => slotAfter_cons f l sl)

theorem changedB_updateSlots (f g : FwCfgFile) (slots : List Slot) :
    changedB f (updateSlots g slots) = changedB f slots := by
  induction slots with
  | nil => rfl
  | cons sl t ih =>
    simp only [changedB, updateSlots, List.map_cons, List.any_cons] at ih ⊢
    rw [updateOne_fst, ih]

theorem findFilesSpec_le (slots : List Slot) (es : List FwCfgFile) :
    (findFilesSpec slots es).2 ≤ es.length := by
  induction es generalizing slots with
  | nil => simp [findFilesSpec]
  | cons f rest ih =>
    simp only [findFilesSpec, List.length_cons]
    split
    · simp
    · have := ih (updateSlots f slots)
      omega

theorem findFilesSpec_pos (slots : List Slot) (f : FwCfgFile) (rest : List FwCfgFile) :
    1 ≤ (findFilesSpec slots (f :: rest)).2 := by
  simp only [findFilesSpec]
  split
  · simp
  · simp

theorem findFilesSpec_fst (slots : List Slot) (es : List FwCfgFile) :
    (findFilesSpec slots es).1 =
      slots.map (slotAfter (es.take (findFilesSpec slots es).2)) := by
  induction es generalizing slots with
  | nil =>
    simp only [findFilesSpec, List.take_nil]
    rw [List.map_congr_left (fun sl _ => slotAfter_nil sl)]
    simp
  | cons f rest ih =>
    simp only [findFilesSpec]
    split
    · simp only [List.take_succ_cons, List.take_zero]
      rw [map_slotAfter_cons]
      rw [List.map_congr_left (fun sl _ => slotAfter_nil sl)]
      simp
    · simp only [List.take_succ_cons]
      rw [map_slotAfter_cons]
      exact ih (updateSlots f slots)

theorem stopAt_cons_succ (slots : List Slot) (f : FwCfgFile) (rest : List FwCfgFile)
    (j : Nat) :
    stopAt slots (f :: rest) (j + 1) = stopAt (updateSlots f slots) rest j := by
  simp only [stopAt, List.getD_cons_succ, List.take_succ_cons, map_slotAfter_cons,
    changedB_updateSlots]

theorem stopAt_cons_zero (slots : List Slot) (f : FwCfgFile) (rest : List FwCfgFile) :
    stopAt slots (f :: rest) 0 = (changedB f slots && allFilled (updateSlots f slots)) := by
  simp only [stopAt, List.getD_cons_zero, List.take_succ_cons, List.take_zero,
    map_slotAfter_cons]
  rw [List.map_congr_left (fun sl _ => slotAfter_nil sl)]
  simp

theorem findFilesSpec_minimal (slots : List Slot) (es : List FwCfgFile) :
    ∀ j, stopAt slots es j = true → (findFilesSpec slots es).2 ≤ j + 1 := by
  induction es generalizing slots with
  | nil =>
    intro j _
    simp [findFilesSpec]
  | cons f rest ih =>
    intro j hj
    simp only [findFilesSpec]
    split
    · exact Nat.le_add_left 1 j
    · rename_i hcond
      cases j with
      | zero =>
        rw [stopAt_cons_zero] at hj
        exact absurd hj hcond
      | succ j =>
        rw [stopAt_cons_succ] at hj
        have hle := ih (updateSlots f slots) j hj
        rcases hspec : findFilesSpec (updateSlots f slots) rest with ⟨r, k⟩
        rw [hspec] at hle
        simp only [hspec]
        omega

theorem findFilesSpec_stop_sound (slots : List Slot) (es : List FwCfgFile) :
    (findFilesSpec slots es).2 < es.length →
      stopAt slots es ((findFilesSpec slots es).2 - 1) = true := by
  induction es generalizing slots with
  | nil =>
    intro h
    simp [findFilesSpec] at h
  | cons f rest ih =>
    intro h
    by_cases hc : (changedB f slots && allFilled (updateSlots f slots)) = true
    · simp only [findFilesSpec, if_pos hc]
      rw [show ((updateSlots f slots, 1) : List Slot × Nat).2 - 1 = 0 from rfl,
        stopAt_cons_zero]
      exact hc
    · simp only [findFilesSpec, if_neg hc] at h ⊢
      rcases hspec : findFilesSpec (updateSlots f slots) rest with ⟨r, k⟩
      rw [hspec] at h
      change k + 1 < (f :: rest).length at h
      change stopAt slots (f :: rest) (k + 1 - 1) = true
      simp only [List.length_cons] at h
      have hk : k < rest.length := by omega
      have hpos : 1 ≤ k := by
        cases rest with
        | nil => simp at hk
        | cons g t =>
          have hp := findFilesSpec_pos (updateSlots f slots) g t
          rw [hspec] at hp
          exact hp
      have hih := ih (updateSlots f slots)
      rw [hspec] at hih
      have hst := hih hk
      change stopAt (updateSlots f slots) rest (k - 1) = true at hst
      have hkj : k = (k - 1) + 1 := by omega
      rw [Nat.add_sub_cancel, hkj, stopAt_cons_succ]
      exact hst

theorem findFilesLoop_eq (dev : Device) (n : Nat) : ∀ (s : St) (slots : List Slot),
    findFilesLoop dev s slots n =
      ((findFilesSpec slots ((List.range n).map
          (fun i => entryAt dev s.selected (s.pos + 64 * i)))).1,
       { s with pos := s.pos + 64 * (findFilesSpec slots ((List.range n).map
          (fun i => entryAt dev s.selected (s.pos + 64 * i)))).2 },
       List.replicate ((findFilesSpec slots ((List.range n).map
          (fun i => entryAt dev s.selected (s.pos + 64 * i)))).2)
         (Event.readData 64)) := by
  induction n with
  | zero =>
    intro s slots
    simp [findFilesLoop, findFilesSpec]
  | succ n ih =>
    intro s slots
    have hlist : (List.range (n + 1)).map
        (fun i => entryAt dev s.selected (s.pos + 64 * i)) =
        entryAt dev s.selected s.pos ::
          (List.range n).map (fun i => entryAt dev s.selected (s.pos + 64 + 64 * i)) := by
      simp only [List.range_succ_eq_map, List.map_cons, List.map_map, Function.comp_def,
        Nat.succ_eq_add_one, Nat.mul_zero, Nat.add_zero, List.cons.injEq, true_and]
      exact List.map_congr_left (fun i _ => congrArg (entryAt dev s.selected) (by omega))
    rw [hlist]
    simp only [findFilesLoop, readOneFile_eq, findFilesSpec]
    rcases hspec : findFilesSpec (updateSlots (entryAt dev s.selected s.pos) slots)
        ((List.range n).map (fun i => entryAt dev s.selected (s.pos + 64 + 64 * i)))
      with ⟨r, k⟩
    split
    · simp
    · have hih := ih { s with pos := s.pos + 64 }
        (updateSlots (entryAt dev s.selected s.pos) slots)
      simp only [] at hih
      rw [hih, hspec]
      simp only [hspec, List.replicate_succ, List.singleton_append, List.cons_append,
        List.nil_append]
      have harith : s.pos + 64 + 64 * k = s.pos + 64 * (k + 1) := by omega
      rw [harith]

theorem slotAfter_no_match (l : List FwCfgFile) (sl : Slot)
    (h : ∀ f ∈ l, f.name ≠ sl.1) : slotAfter l sl = sl := by
  induction l with
  | nil => exact slotAfter_nil sl
  | cons f t ih =>
    rw [slotAfter_cons]
    have hf : f.name ≠ sl.1 := h f (by simp)
    have hupd : updateOne f sl = sl := by simp [updateOne, hf]
    rw [hupd]
    exact ih (fun g hg => h g (by simp [hg]))

theorem slotAfter_match_indep (l : List FwCfgFile) (nm : List Nat)
    (o o' : Option FwCfgFile) (h : ∃ f ∈ l, f.name = nm) :
    (slotAfter l (nm, o)).2 = (slotAfter l (nm, o')).2 := by
  induction l generalizing o o' with
  | nil =>
    rcases h with ⟨f, hf, _⟩
    simp at hf
  | cons g t ih =>
    rw [slotAfter_cons, slotAfter_cons]
    by_cases hg : g.name = nm
    · simp [updateOne, hg]
    · rcases h with ⟨f, hf, hfn⟩
      rcases List.mem_cons.mp hf with rfl | hft
      · exact absurd hfn hg
      · simp only [updateOne, hg, if_neg]
        exact ih o o' ⟨f, hft, hfn⟩

theorem updateSlots_of_not_changed (f : FwCfgFile) (slots : List Slot)
    (h : changedB f slots = false) : updateSlots f slots = slots := by
  unfold changedB at h
  rw [List.any_eq_false] at h
  have hid : ∀ sl ∈ slots, updateOne f sl = sl := by
    intro sl hsl
    have hne := h sl hsl
    simp only [decide_eq_true_eq] at hne
    simp [updateOne, hne]
  unfold updateSlots
  rw [List.map_congr_left hid]
  simp

theorem findFilesSpec_no_match (slots : List Slot) (es : List FwCfgFile)
    (h : ∀ f ∈ es, changedB f slots = false) :
    findFilesSpec slots es = (slots, es.length) := by
  induction es generalizing slots with
  | nil => rfl
  | cons f rest ih =>
    have hf : changedB f slots = false := h f (by simp)
    have hupd : updateSlots f slots = slots := updateSlots_of_not_changed f slots hf
    simp only [findFilesSpec, hf, Bool.false_and, Bool.false_eq_true, if_false, hupd]
    rw [ih slots (fun g hg => h g (by simp [hg]))]
    simp

theorem findFilesSpec_single (nm : List Nat) (es : List FwCfgFile) (i : Nat)
    (hi : i < es.length) (hmatch : (es.getD i default).name = nm)
    (hbefore : ∀ j < i, (es.getD j default).name ≠ nm) :
    findFilesSpec [(nm, none)] es = ([(nm, some (es.getD i default))], i + 1) := by
  induction es generalizing i with
  | nil => simp at hi
  | cons f rest ih =>
    cases i with
    | zero =>
      have hf : f.name = nm := by simpa using hmatch
      have hupd : updateSlots f [(nm, none)] = [(nm, some f)] := by
        simp [updateSlots, updateOne, hf]
      have hch : changedB f [(nm, none)] = true := by simp [changedB, hf]
      simp only [findFilesSpec, hupd, hch, Bool.true_and, allFilled, List.all_cons,
        Option.isSome_some, List.all_nil, Bool.and_true, if_true, List.getD_cons_zero]
    | succ i =>
      have hf : f.name ≠ nm := by
        have h0 := hbefore 0 (Nat.succ_pos i)
        simpa using h0
      have hupd : updateSlots f [(nm, none)] = [(nm, none)] := by
        simp [updateSlots, updateOne, hf]
      have hch : changedB f [(nm, none)] = false := by simp [changedB, hf]
      simp only [findFilesSpec, hch, Bool.false_and, Bool.false_eq_true, if_false, hupd]
      have hi' : i < rest.length := by simpa using hi
      have hm' : (rest.getD i default).name = nm := by simpa using hmatch
      have hb' : ∀ j < i, (rest.getD j default).name ≠ nm := by
        intro j hj
        have hb := hbefore (j + 1) (by omega)
        simpa using hb
      rw [ih i hi' hm' hb']
      simp

theorem find_files_eq (dev : Device) (s : St) (slots : List Slot) :
    find_files dev s slots =
      ((findFilesSpec slots (dirEntries dev)).1,
       { selected := DIR,
         pos := 4 + 64 * (findFilesSpec slots (dirEntries dev)).2, fb := s.fb },
       Event.select DIR :: Event.readData 4 ::
         List.replicate ((findFilesSpec slots (dirEntries dev)).2)
           (Event.readData 64)) := by
  simp only [find_files, iterFilesInit, selectOp, readOp, Nat.zero_add,
    findFilesLoop_eq, dirEntries, dirCount, List.cons_append, List.nil_append,
    List.singleton_append]

theorem find_file_eq (dev : Device) (s : St) (nm : List Nat) :
    find_file dev s nm =
      (((findFilesSpec [(nm, none)] (dirEntries dev)).1.headD (nm, none)).2,
       { selected := DIR,
         pos := 4 + 64 * (findFilesSpec [(nm, none)] (dirEntries dev)).2, fb := s.fb },
       Event.select DIR :: Event.readData 4 ::
         List.replicate ((findFilesSpec [(nm, none)] (dirEntries dev)).2)
           (Event.readData 64)) := by
  simp only [find_file, find_files_eq]

/-- Claim C3: `find_files` enumerates the directory at most once, in
order — its trace is one directory selection, one 4-byte count read and
one 64-byte read per scanned entry, the scanned count `k` being at most
the directory length; the final slots are `slotAfter` of the scanned
prefix: each slot whose requested name equals a scanned entry's name is
overwritten with that entry (the last matching one of the prefix),
duplicate requested names all receive the same match, and a slot
matching no scanned entry retains exactly its original value, pre-seeded
`some` values included; the scan stops early exactly at the first entry
whose processing matches a slot and leaves every slot filled; and
`find_file` is the one-slot case — `some` of a matching entry when the
name is present, `none` after scanning all entries exactly once when it
is absent. -/
theorem find_files_correct (dev : Device) (s : St) (slots : List Slot) :
    find_files dev s slots =
      (slots.map (slotAfter ((dirEntries dev).take
          (findFilesSpec slots (dirEntries dev)).2)),
       { selected := DIR,
         pos := 4 + 64 * (findFilesSpec slots (dirEntries dev)).2, fb := s.fb },
       Event.select DIR :: Event.readData 4 ::
         List.replicate ((findFilesSpec slots (dirEntries dev)).2)
           (Event.readData 64)) ∧
    (findFilesSpec slots (dirEntries dev)).2 ≤ (dirEntries dev).length ∧
    (∀ sl ∈ slots,
      (∀ f ∈ (dirEntries dev).take (findFilesSpec slots (dirEntries dev)).2,
          f.name ≠ sl.1) →
        slotAfter ((dirEntries dev).take (findFilesSpec slots (dirEntries dev)).2) sl
          = sl) ∧
    (∀ nm o o',
      (∃ f ∈ (dirEntries dev).take (findFilesSpec slots (dirEntries dev)).2,
          f.name = nm) →
        (slotAfter ((dirEntries dev).take (findFilesSpec slots (dirEntries dev)).2)
            (nm, o)).2 =
        (slotAfter ((dirEntries dev).take (findFilesSpec slots (dirEntries dev)).2)
            (nm, o')).2) ∧
    ((findFilesSpec slots (dirEntries dev)).2 < (dirEntries dev).length →
      stopAt slots (dirEntries dev)
        ((findFilesSpec slots (dirEntries dev)).2 - 1) = true) ∧
    (∀ j, stopAt slots (dirEntries dev) j = true →
      (findFilesSpec slots (dirEntries dev)).2 ≤ j + 1) ∧
    (∀ nm, (∀ f ∈ dirEntries dev, f.name ≠ nm) →
      find_file dev s nm =
        (none,
         { selected := DIR, pos := 4 + 64 * (dirEntries dev).length, fb := s.fb },
         Event.select DIR :: Event.readData 4 ::
           List.replicate (dirEntries dev).length (Event.readData 64))) ∧
    (∀ nm, (∃ f ∈ dirEntries dev, f.name = nm) →
      ∃ f ∈ dirEntries dev, f.name = nm ∧ (find_file dev s nm).1 = some f) := by
  refine ⟨?_, findFilesSpec_le slots (dirEntries dev), ?_, ?_,
    findFilesSpec_stop_sound slots (dirEntries dev),
    findFilesSpec_minimal slots (dirEntries dev), ?_, ?_⟩
  · rw [find_files_eq, ← findFilesSpec_fst]
  · intro sl _ hnm
    exact slotAfter_no_match _ sl hnm
  · intro nm o o' hex
    exact slotAfter_match_indep _ nm o o' hex
  · intro nm hnone
    have hch : ∀ f ∈ dirEntries dev, changedB f [(nm, none)] = false := by
      intro f hf
      simp [changedB, hnone f hf]
    rw [find_file_eq, findFilesSpec_no_match [(nm, none)] (dirEntries dev) hch]
    simp
  · rintro nm ⟨f0, hf0, hf0n⟩
    have hPex : ∃ j, j < (dirEntries dev).length ∧
        ((dirEntries dev).getD j default).name = nm := by
      rcases List.mem_iff_get.mp hf0 with ⟨idx, hidx⟩
      refine ⟨idx.1, idx.2, ?_⟩
      rw [List.getD_eq_getElem _ _ idx.2]
      rw [← List.get_eq_getElem, hidx]
      exact hf0n
    classical
    have hi := Nat.find_spec hPex
    have hbefore : ∀ j < Nat.find hPex,
        ((dirEntries dev).getD j default).name ≠ nm := by
      intro j hj hname
      exact Nat.find_min hPex hj ⟨by omega, hname⟩
    have hsingle := findFilesSpec_single nm (dirEntries dev) (Nat.find hPex)
      hi.1 hi.2 hbefore
    refine ⟨(dirEntries dev).getD (Nat.find hPex) default, ?_, hi.2, ?_⟩
    · rw [List.getD_eq_getElem _ _ hi.1]
      exact List.getElem_mem _
    · rw [find_file_eq, hsingle]
      simp

/-- Claim C10: when two or more directory entries share the requested
name, `find_file` returns the earliest matching entry in directory
order: if entry `i` matches and no earlier entry does, the result is
entry `i`'s descriptor and the scan performed exactly `i + 1` entry
reads — later duplicates are never reached. -/
theorem find_file_earliest (dev : Device) (s : St) (nm : List Nat) (i : Nat)
    (hi : i < (dirEntries dev).length)
    (hmatch : ((dirEntries dev).getD i default).name = nm)
    (hbefore : ∀ j < i, ((dirEntries dev).getD j default).name ≠ nm) :
    (find_file dev s nm).1 = some ((dirEntries dev).getD i default) ∧
    (find_file dev s nm).2.2 =
      Event.select DIR :: Event.readData 4 ::
        List.replicate (i + 1) (Event.readData 64) := by
  have hsingle := findFilesSpec_single nm (dirEntries dev) i hi hmatch hbefore
  rw [find_file_eq]
  constructor
  · rw [hsingle]
    simp
  · rw [hsingle]

/-- Claim C3 witness: the scan-count bound applied to the sample device
and a one-slot array. -/
theorem find_files_correct_witness :
    (findFilesSpec [([65], none)] (dirEntries sampleDev)).2 ≤
      (dirEntries sampleDev).length :=
  (find_files_correct sampleDev { selected := 0, pos := 0, fb := none }
    [([65], none)]).2.1

/-- Claim C5 witness: the decode equations applied to the sample record. -/
theorem record_decode_encode_witness :
    sampleRecord.length = 64 ∧ (∀ b ∈ sampleRecord, b < 256) ∧
    (FwCfgFile.ofBytes sampleRecord).size = fromBytesBE (sampleRecord.take 4) ∧
    (FwCfgFile.ofBytes sampleRecord).key = fromBytesBE ((sampleRecord.drop 4).take 2) :=
  ⟨by decide, by decide,
   (record_decode_encode sampleRecord (by decide) (by decide)).1,
   (record_decode_encode sampleRecord (by decide) (by decide)).2.1⟩

/-- Claim C6 witness: the never-returns direction applied to a device
with DMA available and a control sequence that never exits (the constant
raw value decoding to 2: ERROR clear, nonzero). -/
theorem write_dma_poll_witness :
    (featureBitmapValue sampleDev { selected := 0, pos := 0, fb := none } &&&
      HAS_DMA ≠ 0) ∧
    (∀ r s' tr, ¬ write_to_file_returns sampleDev
        { selected := 0, pos := 0, fb := none } default 0 0 0
        (fun _ => bswap 4 2) r s' tr) :=
  ⟨by decide,
   (write_dma_poll sampleDev { selected := 0, pos := 0, fb := none } default 0 0 0
      (fun _ => bswap 4 2) (by decide) (by decide) (by decide)).2.2 (fun _ => rfl)⟩

/-- Claim C7 witness: the descriptor layout applied to the sample device
with data length 5 at address 3 and a descriptor at address 7. -/
theorem write_dma_descriptor_layout_witness :
    (featureBitmapValue sampleDev { selected := 0, pos := 0, fb := none } &&&
      HAS_DMA ≠ 0) ∧
    ∃ acc : FwCfgDmaAccess,
      (write_to_file_pre sampleDev { selected := 0, pos := 0, fb := none }
          default 3 5).1 = Except.ok (some acc) ∧
      acc.wireBytes =
        toBytesBE 4 (FwCfgFile.key default <<< 16 ||| FwCfgDmaAccess.WRITE |||
          FwCfgDmaAccess.SELECT) ++ toBytesBE 4 5 ++ toBytesBE 8 3 ∧
      acc.wireBytes.length = 16 ∧
      FwCfgFile.key default < 2 ^ 16 ∧
      start_dma_trace 7 =
        [Event.dmaHigh (bswap 4 (7 / 2 ^ 32)), Event.dmaLow (bswap 4 (7 % 2 ^ 32))] ∧
      toBytesLE 4 (bswap 4 (7 / 2 ^ 32)) = toBytesBE 4 (7 / 2 ^ 32) ∧
      toBytesLE 4 (bswap 4 (7 % 2 ^ 32)) = toBytesBE 4 (7 % 2 ^ 32) :=
  ⟨by decide,
   write_dma_descriptor_layout sampleDev { selected := 0, pos := 0, fb := none }
     default 3 5 7 (by decide) (by decide) (by decide) (by decide)⟩

/-- Claim C10 witness: the earliest-duplicate theorem applied to the
device with two entries both named `"A"`. -/
theorem find_file_earliest_witness :
    (find_file dupDev { selected := 0, pos := 0, fb := none } [65]).1 =
      some ((dirEntries dupDev).getD 0 default) ∧
    (find_file dupDev { selected := 0, pos := 0, fb := none } [65]).2.2 =
      Event.select DIR :: Event.readData 4 ::
        List.replicate (0 + 1) (Event.readData 64) :=
  find_file_earliest dupDev { selected := 0, pos := 0, fb := none } [65] 0
    (by decide) (by decide) (fun j hj => absurd hj (Nat.not_lt_zero j))

end QemuFwCfg
